import Mathlib

/-!
Verification of `utils/io_helpers.py` (`read_all_csvs`) from the GPMS
repository, as a shallow embedding in Lean 4.

The Python function takes a `folder_path`, checks `os.path.isdir`, collects
`glob.glob(os.path.join(folder_path, "*.csv"))`, and loads every matched path
with `pd.read_csv` into a dict keyed by `os.path.splitext(os.path.basename(p))[0]`.

The embedding models:
  * strings as `List Char` (a `Name`),
  * the relevant directory as a `Folder`: an `isdir` flag plus the list of
    entries directly inside it, in filesystem enumeration order,
  * `pd.read_csv` as an explicit parameter `parse : List Char → Except (List Char) α`
    taking the bytes of a file to a table or to an exception message
    (pandas is an external library; reading a directory entry fails with an
    IsADirectoryError-style message independently of `parse`),
  * Python's dict as an association list with insert-overwrite keeping the
    original position of an overwritten key, and append for a fresh key,
  * the three raised exceptions as an `Err` inductive carrying the rendered
    message (and, for `RuntimeError`, the chained cause from `raise ... from e`).

For the round-trip property the underlying tabular format is modelled from
the spec (the CSV writer and the pandas parser are not part of the
repository's source): see `Table`, `writeCSV`, `readCSV` below.
-/

instance {ε α : Type} [DecidableEq ε] [DecidableEq α] : DecidableEq (Except ε α) := fun x y =>
  match x, y with
  | .ok a, .ok b =>
    if h : a = b then .isTrue (by rw [h]) else .isFalse (by intro hc; cases hc; exact h rfl)
  | .error a, .error b =>
    if h : a = b then .isTrue (by rw [h]) else .isFalse (by intro hc; cases hc; exact h rfl)
  | .ok _, .error _ => .isFalse (by intro hc; cases hc)
  | .error _, .ok _ => .isFalse (by intro hc; cases hc)

namespace GPMS

variable {α : Type}

/-- Strings of the modelled program (paths, file names, file contents,
exception messages) are lists of characters. -/
abbrev Name := List Char

/-- The single-quote character, used by the Python f-strings that render the
exception messages. -/
def sq : Char := Char.ofNat 39

/-- One entry directly inside the scanned folder: either a regular file with
its byte content, or a subdirectory.  (`glob` matches both kinds.) -/
inductive Entry where
  | file (name : Name) (content : List Char)
  | dir (name : Name)
deriving DecidableEq

/-- The name of an entry, as enumerated by the filesystem. -/
def Entry.name : Entry → Name
  | .file n _ => n
  | .dir n => n

/-- The state of the filesystem at `folder_path`: whether `os.path.isdir`
holds, and the entries directly inside the folder, in enumeration order. -/
structure Folder where
  isdir : Bool
  entries : List Entry
deriving DecidableEq

/-- Helper for the `*` wildcard of `fnmatch`: `globStar k s` holds iff `k`
holds of some suffix of `s` (`*` consumes any prefix, including none). -/
def globStar (k : List Char → Bool) : List Char → Bool
  | [] => k []
  | d :: s => k (d :: s) || globStar k s

/-- The `fnmatch`-style matcher used by `glob` for the pattern characters that
occur here: `*` matches any sequence, `?` any single character, and every
other pattern character only itself.  (The pattern `*.csv` used by the source
contains no character classes, so `[...]` is not modelled.) -/
def globMatchP : List Char → List Char → Bool
  | [], s => s.isEmpty
  | c :: ps, s =>
    if c = '*' then globStar (globMatchP ps) s
    else
      match s with
      | [] => false
      | d :: s2 => (c = '?' || c = d) && globMatchP ps s2

/-- The literal pattern `*.csv` passed to `glob.glob`. -/
def starCsvPattern : List Char := ['*', '.', 'c', 's', 'v']

/-- Whether a directory entry name begins with a dot; `glob` filters such
hidden entries out because the pattern `*.csv` itself does not begin with
a dot. -/
def hiddenName : Name → Bool
  | '.' :: _ => true
  | _ => false

/-- Whether `glob.glob(os.path.join(folder_path, "*.csv"))` matches an entry
name: the entry is not hidden and the name matches the pattern `*.csv`. -/
def matchesGlob (n : Name) : Bool :=
  !hiddenName n && globMatchP starCsvPattern n

/-- POSIX `os.path.join` for a second component that is not absolute (entry
names produced by enumeration never begin with a separator). -/
def pathJoin (d n : Name) : Name :=
  if d = [] then n
  else if d.getLast? = some '/' then d ++ n
  else d ++ '/' :: n

/-- POSIX `os.path.basename`: everything after the last separator. -/
def basename (p : Name) : Name :=
  (p.reverse.takeWhile (fun c => !(c = '/' : Bool))).reverse

/-- Remove everything after and including the final dot of a string that is
known to contain a dot (helper for `splitextKey`). -/
def stripAfterLastDot (s : Name) : Name :=
  ((s.reverse.dropWhile (fun c => !(c = '.' : Bool))).reverse).dropLast

/-- The first component of Python's `os.path.splitext` applied to a bare file
name (no separators): leading dots never start an extension, so the name is
split at its final dot only when a non-dot character occurs before it. -/
def splitextKey (f : Name) : Name :=
  let pre := f.takeWhile (fun c => (c = '.' : Bool))
  let rest := f.dropWhile (fun c => (c = '.' : Bool))
  if '.' ∈ rest then pre ++ stripAfterLastDot rest else f

/-- The dict key the source derives from a matched path:
`os.path.splitext(os.path.basename(path))[0]`. -/
def keyOfPath (p : Name) : Name := splitextKey (basename p)

/-- The matched entries of the folder, paired with the full path `glob`
reports for each (`glob` yields `os.path.join(dirname, name)` for every
matching `name`, in enumeration order). -/
def csvEntries (folder_path : Name) (entries : List Entry) : List (Name × Entry) :=
  (entries.filter (fun e => matchesGlob e.name)).map
    (fun e => (pathJoin folder_path e.name, e))

/-- Message of the `IsADirectoryError` raised when `pd.read_csv` is pointed at
a directory. -/
def isADirectoryMsg (p : Name) : List Char :=
  ("Is a directory: ".data) ++ [sq] ++ p ++ [sq]

/-- The call pd.read_csv(path) in the model: a regular file is handed to the ambient
parser `parse`; opening a directory fails before any parsing. -/
def pdReadCsv (parse : List Char → Except (List Char) α) (p : Name) :
    Entry → Except (List Char) α
  | .dir _ => .error (isADirectoryMsg p)
  | .file _ content => parse content

/-- Python dict assignment `d[k] = v`: an existing key keeps its position and
gets the new value; a fresh key is appended at the end. -/
def dictInsert : List (Name × α) → Name → α → List (Name × α)
  | [], k, v => [(k, v)]
  | q :: d, k, v => if q.1 = k then (k, v) :: d else q :: dictInsert d k v

/-- Python dict lookup `d[k]` (as an `Option`). -/
def dictGet : List (Name × α) → Name → Option α
  | [], _ => none
  | q :: d, k => if q.1 = k then some q.2 else dictGet d k

/-- The keys of a modelled dict, in insertion order. -/
def dictKeys (d : List (Name × α)) : List Name := d.map Prod.fst

/-- The exceptions `read_all_csvs` raises, with their rendered messages; the
`RuntimeError` also carries the exception it was chained from
(`raise RuntimeError(...) from e`). -/
inductive Err where
  | fileNotFoundError (msg : List Char)
  | valueError (msg : List Char)
  | runtimeError (msg : List Char) (cause : List Char)
deriving DecidableEq

/-- Message of the FileNotFoundError f-string: the text `Pasta não encontrada: `
followed by the folder path wrapped in single quotes. -/
def nfMsg (folder_path : Name) : List Char :=
  ("Pasta não encontrada: ".data) ++ [sq] ++ folder_path ++ [sq]

/-- Message of the ValueError f-string: the text `Nenhum arquivo .csv encontrado em: `
followed by the folder path wrapped in single quotes. -/
def nvMsg (folder_path : Name) : List Char :=
  ("Nenhum arquivo .csv encontrado em: ".data) ++ [sq] ++ folder_path ++ [sq]

/-- Message of the RuntimeError f-string: the text `Erro ao ler ` followed by the
file path wrapped in single quotes, a colon, and the rendered cause. -/
def rtMsg (p : Name) (cause : List Char) : List Char :=
  ("Erro ao ler ".data) ++ [sq] ++ p ++ [sq] ++ (": ".data) ++ cause

/-- The loop of `read_all_csvs`: for each matched path, derive the key from
`os.path.splitext(os.path.basename(path))`, read the file (re-raising any
failure as the chained `RuntimeError`), and store the table in the dict. -/
def readLoop (parse : List Char → Except (List Char) α) :
    List (Name × Entry) → List (Name × α) → Except Err (List (Name × α))
  | [], dataframes => .ok dataframes
  | (p, ent) :: rest, dataframes =>
    match pdReadCsv parse p ent with
    | .error e => .error (.runtimeError (rtMsg p e) e)
    | .ok df => readLoop parse rest (dictInsert dataframes (keyOfPath p) df)

/-- Shallow embedding of `read_all_csvs(folder_path)`; the filesystem state
`fld` and the CSV parser `parse` (`pd.read_csv`) are explicit parameters. -/
def read_all_csvs (parse : List Char → Except (List Char) α) (fld : Folder)
    (folder_path : Name) : Except Err (List (Name × α)) :=
  if fld.isdir = false then
    .error (.fileNotFoundError (nfMsg folder_path))
  else
    let csv_paths := csvEntries folder_path fld.entries
    if csv_paths.isEmpty then
      .error (.valueError (nvMsg folder_path))
    else
      readLoop parse csv_paths []

/-- The characters of the literal extension `.csv`. -/
def csvExt : List Char := ['.', 'c', 's', 'v']

/-- The spec-side matching predicate: the entry name ends with the literal,
case-sensitive suffix `.csv`. -/
def hasCsvExt (n : Name) : Bool := csvExt.isSuffixOf n

/-- Modelled from the spec: the values a cell of a loaded Table can hold.
The source delegates parsing to `pd.read_csv`, which is not part of this
repository; the spec only requires that schema/type inference turn numeric
strings into numbers, so cells are numbers or plain strings. -/
inductive Value where
  | num (n : ℕ)
  | str (s : List Char)
deriving DecidableEq

/-- Modelled from the spec: a Table is "an in-memory tabular structure with
named columns and ordered rows, produced by parsing one CSV file". -/
structure Table where
  columns : List Name
  rows : List (List Value)
deriving DecidableEq

/-- The decimal digit `d` as a character. -/
def digitToChar (d : ℕ) : Char := Char.ofNat (48 + d)

/-- The numeric value of a decimal digit character. -/
def charToDigit (c : Char) : ℕ := c.toNat - 48

/-- Decimal rendering of a natural number. -/
def natToChars (n : ℕ) : List Char :=
  if n = 0 then ['0'] else ((Nat.digits 10 n).map digitToChar).reverse

/-- Decimal reading of a digit string. -/
def charsToNat (s : List Char) : ℕ :=
  Nat.ofDigits 10 ((s.map charToDigit).reverse)

/-- Modelled from the spec: how a cell value is rendered when a table is
written to CSV text. -/
def renderValue : Value → List Char
  | .num n => natToChars n
  | .str s => s

/-- Modelled from the spec: per-cell type inference of the parser — a
non-empty all-digit token becomes a number, anything else stays a string. -/
def inferValue (s : List Char) : Value :=
  if !s.isEmpty && s.all Char.isDigit then .num (charsToNat s) else .str s

/-- Interpose a separator between the parts (inverse of `splitC`). -/
def joinC (sep : Char) : List (List Char) → List Char
  | [] => []
  | [x] => x
  | x :: xs => x ++ sep :: joinC sep xs

/-- Split a string at every occurrence of the separator; always returns at
least one part. -/
def splitC (sep : Char) : List Char → List (List Char)
  | [] => [[]]
  | c :: cs =>
    match splitC sep cs with
    | [] => [[c]]
    | r :: rs => if c = sep then [] :: r :: rs else (c :: r) :: rs

/-- Modelled from the spec: writing a table to CSV text — comma-delimited
cells, first line the column headers, one line per row. -/
def writeCSV (t : Table) : List Char :=
  joinC '\n' ((joinC ',' t.columns) :: t.rows.map (fun r => joinC ',' (r.map renderValue)))

/-- Modelled from the spec: the CSV parser (`pd.read_csv`) — comma-delimited,
first row treated as column headers, cells subject to type inference. -/
def readCSV (s : List Char) : Table :=
  match splitC '\n' s with
  | [] => ⟨[], []⟩
  | header :: rows =>
    ⟨splitC ',' header, rows.map (fun r => (splitC ',' r).map inferValue)⟩

/-- The modelled parser packaged in the calling convention of
`read_all_csvs` (parsing itself never raises in this model). -/
def csvParse (s : List Char) : Except (List Char) Table := .ok (readCSV s)

/-- The normalization a cell value undergoes in a write-then-read round trip
(type inference applied to the rendered cell). -/
def normalizeValue (v : Value) : Value := inferValue (renderValue v)

/-- No comma and no newline occurs in the string: the cell fits in one
comma-delimited field of a CSV line. -/
def noSep (s : List Char) : Bool :=
  s.all (fun c => !(c = ',' : Bool) && !(c = '\n' : Bool))

/-- Well-formedness of a table for CSV writing: at least one column, no row
empty, and no separator characters inside column names or rendered cells. -/
def Table.wf (t : Table) : Prop :=
  t.columns ≠ [] ∧ (∀ c ∈ t.columns, noSep c = true) ∧
    ∀ r ∈ t.rows, r ≠ [] ∧ ∀ v ∈ r, noSep (renderValue v) = true

/-- The test `globStar k s` holds exactly when `k` holds of some suffix of `s`. -/
theorem globStar_iff (k : List Char → Bool) (s : List Char) :
    globStar k s = true ↔ ∃ a t, s = a ++ t ∧ k t = true := by
  induction s with
  | nil =>
    simp only [globStar]
    constructor
    · intro h; exact ⟨[], [], rfl, h⟩
    · rintro ⟨a, t, hs, hk⟩
      rcases List.append_eq_nil.mp hs.symm with ⟨rfl, rfl⟩
      exact hk
  | cons d s ih =>
    simp only [globStar, Bool.or_eq_true, ih]
    constructor
    · rintro (h | ⟨a, t, rfl, hk⟩)
      · exact ⟨[], d :: s, rfl, h⟩
      · exact ⟨d :: a, t, rfl, hk⟩
    · rintro ⟨a, t, hs, hk⟩
      cases a with
      | nil => left; simpa using hs ▸ hk
      | cons x a =>
        right
        refine ⟨a, t, ?_, hk⟩
        simp only [List.cons_append] at hs
        exact (List.cons.injEq .. ▸ hs).2

/-- A pattern free of wildcards matches only itself. -/
theorem globMatchP_literal (p s : List Char)
    (hp : ∀ c ∈ p, ¬c = '*' ∧ ¬c = '?') :
    globMatchP p s = true ↔ s = p := by
  induction p generalizing s with
  | nil => cases s <;> simp [globMatchP]
  | cons c ps ih =>
    have hc := hp c (by simp)
    cases s with
    | nil => simp [globMatchP, hc.1]
    | cons d s2 =>
      simp only [globMatchP, if_neg hc.1, Bool.and_eq_true, Bool.or_eq_true,
        decide_eq_true_eq, ih _ (fun x hx => hp x (by simp [hx]))]
      constructor
      · rintro ⟨hd, rfl⟩
        rcases hd with h | h
        · exact absurd h hc.2
        · rw [h]
      · intro h
        injection h with h1 h2
        exact ⟨Or.inr h1.symm, h2⟩

/-- Characterisation of the spec-side suffix test. -/
theorem hasCsvExt_iff (n : Name) :
    hasCsvExt n = true ↔ ∃ a, n = a ++ csvExt := by
  rw [hasCsvExt, List.isSuffixOf_iff_suffix]
  exact ⟨fun ⟨t, ht⟩ => ⟨t, ht.symm⟩, fun ⟨a, ha⟩ => ⟨a, ha.symm⟩⟩

/-- The fnmatch pattern `*.csv` matches exactly the strings that end with the
literal suffix `.csv`. -/
theorem globMatchP_starCsv (n : Name) :
    globMatchP starCsvPattern n = hasCsvExt n := by
  have hlit : ∀ s : List Char, globMatchP ['.', 'c', 's', 'v'] s = true ↔ s = csvExt :=
    fun s => globMatchP_literal _ s (by decide)
  have hstar : globMatchP starCsvPattern n = globStar (globMatchP ['.', 'c', 's', 'v']) n := by
    rfl
  rw [hstar]
  rcases h : hasCsvExt n with _ | _
  · rw [← Bool.not_eq_true]
    intro hc
    rcases (globStar_iff _ _).mp hc with ⟨a, t, rfl, hk⟩
    rw [hlit t] at hk
    subst hk
    rw [(hasCsvExt_iff _).mpr ⟨a, rfl⟩] at h
    cases h
  · rcases (hasCsvExt_iff n).mp h with ⟨a, rfl⟩
    exact (globStar_iff _ _).mpr ⟨a, csvExt, rfl, (hlit _).mpr rfl⟩

/-- What `glob` keeps: exactly the non-hidden entries whose name ends in
`.csv`. -/
theorem matchesGlob_iff (n : Name) :
    matchesGlob n = true ↔ hiddenName n = false ∧ hasCsvExt n = true := by
  rw [matchesGlob, globMatchP_starCsv, Bool.and_eq_true, Bool.not_eq_true']

/-- Taking while keeps a list all of whose elements satisfy the predicate. -/
theorem takeWhile_all (p : Char → Bool) (l : List Char) (h : ∀ a ∈ l, p a = true) :
    l.takeWhile p = l := by
  induction l with
  | nil => rfl
  | cons a l ih =>
    simp [List.takeWhile_cons, h a (by simp), ih (fun x hx => h x (by simp [hx]))]

/-- Taking while passes over a first block all of whose elements satisfy the
predicate. -/
theorem takeWhile_all_append (p : Char → Bool) (l₁ l₂ : List Char)
    (h : ∀ a ∈ l₁, p a = true) :
    (l₁ ++ l₂).takeWhile p = l₁ ++ l₂.takeWhile p := by
  induction l₁ with
  | nil => rfl
  | cons a l ih =>
    simp [List.takeWhile_cons, h a (by simp), ih (fun x hx => h x (by simp [hx]))]

/-- The basename undoes the path join for an entry name free of
separators. -/
theorem basename_pathJoin (d n : Name) (h : '/' ∉ n) : basename (pathJoin d n) = n := by
  have hall : ∀ a ∈ n.reverse, (!(a = '/' : Bool)) = true := by
    intro a ha
    simp only [List.mem_reverse] at ha
    simp only [Bool.not_eq_true']
    exact decide_eq_false (fun hc => h (hc ▸ ha))
  unfold pathJoin basename
  by_cases hd : d = []
  · rw [if_pos hd, takeWhile_all _ _ hall, List.reverse_reverse]
  · rw [if_neg hd]
    by_cases hlast : d.getLast? = some '/'
    · rw [if_pos hlast, List.reverse_append]
      have hrev : d.reverse = '/' :: d.reverse.tail := by
        have : d.reverse.head? = some '/' := by
          rw [List.head?_reverse]; exact hlast
        cases hr : d.reverse with
        | nil => rw [hr] at this; cases this
        | cons x xs => rw [hr] at this; injection this with hx; rw [hx]; rfl
      rw [hrev, takeWhile_all_append _ _ _ hall, List.takeWhile_cons]
      simp
    · rw [if_neg hlast]
      rw [show d ++ '/' :: n = (d ++ ['/']) ++ n by simp]
      rw [List.reverse_append, takeWhile_all_append _ _ _ hall, List.reverse_append]
      simp [List.takeWhile_cons]

/-- Removing the final extension of `a ++ ".csv"` gives back `a`. -/
theorem stripAfterLastDot_concat (a : Name) : stripAfterLastDot (a ++ csvExt) = a := by
  unfold stripAfterLastDot csvExt
  rw [show (a ++ ['.', 'c', 's', 'v']).reverse = 'v' :: 's' :: 'c' :: '.' :: a.reverse by simp]
  rw [List.dropWhile_cons_of_pos (by decide), List.dropWhile_cons_of_pos (by decide),
    List.dropWhile_cons_of_pos (by decide), List.dropWhile_cons_of_neg (by decide)]
  rw [show ('.' :: a.reverse).reverse = a ++ ['.'] by simp]
  exact List.dropLast_concat ..

/-- On a non-hidden name that contains a dot, `os.path.splitext` splits at the
final dot. -/
theorem splitextKey_not_hidden (n : Name) (hh : hiddenName n = false) (hd : '.' ∈ n) :
    splitextKey n = stripAfterLastDot n := by
  cases n with
  | nil => cases hd
  | cons c n' =>
    have hc : ¬c = '.' := by
      intro hc; subst hc; simp [hiddenName] at hh
    unfold splitextKey
    simp only [List.takeWhile_cons, List.dropWhile_cons, decide_eq_true_eq, if_neg hc]
    rw [if_pos hd]
    simp

/-- The dict key the loop derives for a matched entry `a ++ ".csv"` is `a`. -/
theorem keyOfPath_pathJoin (d n a : Name) (hsep : '/' ∉ n)
    (hh : hiddenName n = false) (hext : n = a ++ csvExt) :
    keyOfPath (pathJoin d n) = a := by
  rw [keyOfPath, basename_pathJoin d n hsep,
    splitextKey_not_hidden n hh (by rw [hext]; simp [csvExt]), hext,
    stripAfterLastDot_concat]

/-- Membership in the keys of a dict with a leading pair. -/
theorem mem_dictKeys_cons (q : Name × α) (d : List (Name × α)) (k : Name) :
    k ∈ dictKeys (q :: d) ↔ k = q.1 ∨ k ∈ dictKeys d := by
  simp only [dictKeys, List.map_cons, List.mem_cons]

/-- Looking up the key just inserted yields the inserted value. -/
theorem dictGet_insert_self (d : List (Name × α)) (k : Name) (v : α) :
    dictGet (dictInsert d k v) k = some v := by
  induction d with
  | nil => simp [dictInsert, dictGet]
  | cons q d ih =>
    by_cases hq : q.1 = k
    · simp [dictInsert, hq, dictGet]
    · simp [dictInsert, hq, dictGet, ih]

/-- Insertion leaves every other key unchanged. -/
theorem dictGet_insert_ne (d : List (Name × α)) (k k' : Name) (v : α) (h : ¬k' = k) :
    dictGet (dictInsert d k v) k' = dictGet d k' := by
  have h' : ¬k = k' := fun hc => h hc.symm
  induction d with
  | nil => simp [dictInsert, dictGet, h']
  | cons q d ih =>
    by_cases hq : q.1 = k
    · simp only [dictInsert, if_pos hq, dictGet]
      rw [if_neg h', if_neg (fun hc => h (hc.symm.trans hq))]
    · simp only [dictInsert, if_neg hq, dictGet]
      by_cases hq' : q.1 = k'
      · rw [if_pos hq', if_pos hq']
      · rw [if_neg hq', if_neg hq', ih]

/-- Overwriting an existing key does not change the key list. -/
theorem dictKeys_insert_mem (d : List (Name × α)) (k : Name) (v : α)
    (h : k ∈ dictKeys d) : dictKeys (dictInsert d k v) = dictKeys d := by
  induction d with
  | nil => cases h
  | cons q d ih =>
    by_cases hq : q.1 = k
    · simp only [dictInsert, if_pos hq]
      show k :: dictKeys d = q.1 :: dictKeys d
      rw [hq]
    · have hd : k ∈ dictKeys d := by
        rcases (mem_dictKeys_cons q d k).mp h with hc | hc
        · exact absurd hc.symm hq
        · exact hc
      simp only [dictInsert, if_neg hq]
      show q.1 :: dictKeys (dictInsert d k v) = q.1 :: dictKeys d
      rw [ih hd]

/-- Inserting a fresh key appends it to the key list. -/
theorem dictKeys_insert_fresh (d : List (Name × α)) (k : Name) (v : α)
    (h : ¬k ∈ dictKeys d) : dictKeys (dictInsert d k v) = dictKeys d ++ [k] := by
  induction d with
  | nil => rfl
  | cons q d ih =>
    have hq : ¬q.1 = k := fun hc => h ((mem_dictKeys_cons q d k).mpr (Or.inl hc.symm))
    have hd : ¬k ∈ dictKeys d := fun hc => h ((mem_dictKeys_cons q d k).mpr (Or.inr hc))
    simp only [dictInsert, if_neg hq]
    show q.1 :: dictKeys (dictInsert d k v) = (q.1 :: dictKeys d) ++ [k]
    rw [ih hd]
    rfl

/-- A dict has as many keys as pairs. -/
theorem length_dictKeys (d : List (Name × α)) : (dictKeys d).length = d.length := by
  simp only [dictKeys, List.length_map]

/-- Overwriting an existing key keeps the dict size. -/
theorem length_dictInsert_mem (d : List (Name × α)) (k : Name) (v : α)
    (h : k ∈ dictKeys d) : (dictInsert d k v).length = d.length := by
  have h1 := congrArg List.length (dictKeys_insert_mem d k v h)
  rwa [length_dictKeys, length_dictKeys] at h1

/-- Inserting a fresh key grows the dict by one. -/
theorem length_dictInsert_fresh (d : List (Name × α)) (k : Name) (v : α)
    (h : ¬k ∈ dictKeys d) : (dictInsert d k v).length = d.length + 1 := by
  have h1 := congrArg List.length (dictKeys_insert_fresh d k v h)
  rw [List.length_append, length_dictKeys, length_dictKeys] at h1
  simpa using h1

/-- Insertion never shrinks a dict. -/
theorem length_dictInsert_ge (d : List (Name × α)) (k : Name) (v : α) :
    d.length ≤ (dictInsert d k v).length := by
  by_cases h : k ∈ dictKeys d
  · rw [length_dictInsert_mem d k v h]
  · rw [length_dictInsert_fresh d k v h]; omega

/-- Insertion preserves distinctness of the keys. -/
theorem nodup_dictKeys_insert (d : List (Name × α)) (k : Name) (v : α)
    (h : (dictKeys d).Nodup) : (dictKeys (dictInsert d k v)).Nodup := by
  by_cases hm : k ∈ dictKeys d
  · rwa [dictKeys_insert_mem d k v hm]
  · rw [dictKeys_insert_fresh d k v hm]
    have := List.Nodup.concat hm h
    simpa [List.concat_eq_append] using this

/-- In a dict with distinct keys, a key that resolves occurs in exactly one
pair. -/
theorem countP_key_eq_one (d : List (Name × α)) (k : Name) (v : α)
    (hnd : (dictKeys d).Nodup) (hget : dictGet d k = some v) :
    d.countP (fun q => decide (q.1 = k)) = 1 := by
  induction d generalizing v with
  | nil => cases hget
  | cons q d ih =>
    have hnd' : (q.1 :: dictKeys d).Nodup := hnd
    have hq : ¬q.1 ∈ dictKeys d := (List.nodup_cons.mp hnd').1
    have hd : (dictKeys d).Nodup := (List.nodup_cons.mp hnd').2
    by_cases hk : q.1 = k
    · have hz : d.countP (fun q => decide (q.1 = k)) = 0 := by
        rw [List.countP_eq_zero]
        intro x hx
        simp only [decide_eq_true_eq]
        intro hc
        have hmem : x.1 ∈ dictKeys d := List.mem_map_of_mem Prod.fst hx
        rw [hc, ← hk] at hmem
        exact hq hmem
      rw [List.countP_cons]
      simp [hk, hz]
    · rw [dictGet, if_neg hk] at hget
      rw [List.countP_cons]
      simp [hk, ih v hd hget]

/-- A successful pass of the loop never shrinks the dict. -/
theorem readLoop_length_ge (parse : List Char → Except (List Char) α)
    (l : List (Name × Entry)) :
    ∀ d m, readLoop parse l d = .ok m → d.length ≤ m.length := by
  induction l with
  | nil =>
    intro d m h
    simp only [readLoop] at h
    cases h
    exact le_refl _
  | cons pe rest ih =>
    intro d m h
    obtain ⟨p0, e0⟩ := pe
    cases hp : pdReadCsv parse p0 e0 with
    | error e =>
      simp only [readLoop, hp] at h
      exact Except.noConfusion h
    | ok df =>
      simp only [readLoop, hp] at h
      exact le_trans (length_dictInsert_ge d _ df) (ih _ m h)

/-- If any matched entry fails to read, the loop raises the chained
`RuntimeError` of the first failing entry, irrespective of the dict
accumulated so far. -/
theorem readLoop_err_exists (parse : List Char → Except (List Char) α)
    (l : List (Name × Entry))
    (hf : ∃ q ∈ l, ∃ c, pdReadCsv parse q.1 q.2 = .error c) :
    ∃ p c, (∃ e, (p, e) ∈ l ∧ pdReadCsv parse p e = .error c) ∧
      ∀ d, readLoop parse l d = .error (.runtimeError (rtMsg p c) c) := by
  induction l with
  | nil =>
    obtain ⟨q, hq, _⟩ := hf
    cases hq
  | cons pe rest ih =>
    obtain ⟨p0, e0⟩ := pe
    cases hp : pdReadCsv parse p0 e0 with
    | error c0 =>
      refine ⟨p0, c0, ⟨e0, List.mem_cons_self .., hp⟩, fun d => ?_⟩
      simp only [readLoop, hp]
    | ok df =>
      have hf' : ∃ q ∈ rest, ∃ c, pdReadCsv parse q.1 q.2 = .error c := by
        obtain ⟨q, hq, c, hc⟩ := hf
        rcases List.mem_cons.mp hq with rfl | hmem
        · rw [hp] at hc; cases hc
        · exact ⟨q, hmem, c, hc⟩
      obtain ⟨p, c, ⟨e, hmem, herr⟩, hloop⟩ := ih hf'
      refine ⟨p, c, ⟨e, List.mem_cons_of_mem _ hmem, herr⟩, fun d => ?_⟩
      simp only [readLoop, hp]
      exact hloop _

/-- After a successful loop, each key holds the table of the last matched
entry that produced that key (later entries overwrite earlier ones). -/
theorem readLoop_get (parse : List Char → Except (List Char) α)
    (l : List (Name × Entry)) :
    ∀ d m, readLoop parse l d = .ok m → ∀ k, dictGet m k =
      (match l.reverse.find? (fun q => decide (keyOfPath q.1 = k)) with
       | some q => (pdReadCsv parse q.1 q.2).toOption
       | none => dictGet d k) := by
  induction l with
  | nil =>
    intro d m h k
    simp only [readLoop] at h
    cases h
    rfl
  | cons pe rest ih =>
    intro d m h k
    obtain ⟨p0, e0⟩ := pe
    cases hp : pdReadCsv parse p0 e0 with
    | error e =>
      simp only [readLoop, hp] at h
      exact Except.noConfusion h
    | ok df =>
      simp only [readLoop, hp] at h
      have hrec := ih _ _ h k
      rw [List.reverse_cons, List.find?_append]
      cases hfind : rest.reverse.find? (fun q => decide (keyOfPath q.1 = k)) with
      | some q =>
        rw [hfind] at hrec
        show dictGet m k = (pdReadCsv parse q.1 q.2).toOption
        exact hrec
      | none =>
        rw [hfind] at hrec
        have hrec2 : dictGet m k = dictGet (dictInsert d (keyOfPath p0) df) k := hrec
        by_cases hk : keyOfPath p0 = k
        · have hfind2 : List.find? (fun q => decide (keyOfPath q.1 = k)) [(p0, e0)]
              = some (p0, e0) :=
            List.find?_cons_of_pos _ (by simpa using hk)
          rw [hfind2]
          show dictGet m k = (pdReadCsv parse p0 e0).toOption
          rw [hrec2, ← hk, dictGet_insert_self, hp]
          rfl
        · have hfind2 : List.find? (fun q => decide (keyOfPath q.1 = k)) [(p0, e0)]
              = none := by
            rw [List.find?_cons_of_neg _ (by simpa using hk)]
            rfl
          rw [hfind2]
          show dictGet m k = dictGet d k
          rw [hrec2, dictGet_insert_ne _ _ _ _ (fun hc => hk hc.symm)]

/-- A successful loop preserves distinctness of the dict keys. -/
theorem readLoop_nodup (parse : List Char → Except (List Char) α)
    (l : List (Name × Entry)) :
    ∀ d m, readLoop parse l d = .ok m → (dictKeys d).Nodup → (dictKeys m).Nodup := by
  induction l with
  | nil =>
    intro d m h hnd
    simp only [readLoop] at h
    cases h
    exact hnd
  | cons pe rest ih =>
    intro d m h hnd
    obtain ⟨p0, e0⟩ := pe
    cases hp : pdReadCsv parse p0 e0 with
    | error e =>
      simp only [readLoop, hp] at h
      exact Except.noConfusion h
    | ok df =>
      simp only [readLoop, hp] at h
      exact ih _ _ h (nodup_dictKeys_insert _ _ _ hnd)

/-- When every matched entry reads successfully and the derived keys are
pairwise distinct and fresh, the loop succeeds and stores each entry's table
under its key, growing the dict by exactly one pair per entry. -/
theorem readLoop_fresh (parse : List Char → Except (List Char) α)
    (l : List (Name × Entry)) :
    ∀ d, (∀ q ∈ l, ∃ a, pdReadCsv parse q.1 q.2 = .ok a) →
      (l.map (fun q => keyOfPath q.1)).Nodup →
      (∀ q ∈ l, ¬keyOfPath q.1 ∈ dictKeys d) →
      ∃ m, readLoop parse l d = .ok m ∧ m.length = d.length + l.length ∧
        (∀ k, (∀ q ∈ l, ¬keyOfPath q.1 = k) → dictGet m k = dictGet d k) ∧
        (∀ q ∈ l, ∀ a, pdReadCsv parse q.1 q.2 = .ok a →
          dictGet m (keyOfPath q.1) = some a) := by
  induction l with
  | nil =>
    intro d _ _ _
    exact ⟨d, rfl, by rw [List.length_nil]; omega, fun k _ => rfl,
      fun q hq => absurd hq (List.not_mem_nil q)⟩
  | cons pe rest ih =>
    intro d hok hnd hfresh
    obtain ⟨p0, e0⟩ := pe
    obtain ⟨a0, ha0⟩ := hok _ (List.mem_cons_self ..)
    have hnd2 : (keyOfPath p0 :: rest.map fun q => keyOfPath q.1).Nodup := by
      rw [List.map_cons] at hnd
      exact hnd
    have hhead : ¬keyOfPath p0 ∈ rest.map (fun q => keyOfPath q.1) :=
      (List.nodup_cons.mp hnd2).1
    have hfresh0 : ¬keyOfPath p0 ∈ dictKeys d := hfresh _ (List.mem_cons_self ..)
    have hfresh' : ∀ q ∈ rest, ¬keyOfPath q.1 ∈ dictKeys (dictInsert d (keyOfPath p0) a0) := by
      intro q hq hc
      rw [dictKeys_insert_fresh _ _ _ hfresh0] at hc
      rcases List.mem_append.mp hc with hc | hc
      · exact hfresh q (List.mem_cons_of_mem _ hq) hc
      · have heq : keyOfPath q.1 = keyOfPath p0 := List.mem_singleton.mp hc
        exact hhead (by rw [← heq]; exact List.mem_map_of_mem _ hq)
    obtain ⟨m, hloop, hlen, hunch, hget⟩ :=
      ih (dictInsert d (keyOfPath p0) a0)
        (fun q hq => hok q (List.mem_cons_of_mem _ hq))
        (List.nodup_cons.mp hnd2).2 hfresh'
    refine ⟨m, ?_, ?_, ?_, ?_⟩
    · simp only [readLoop, ha0]
      exact hloop
    · rw [hlen, length_dictInsert_fresh _ _ _ hfresh0, List.length_cons]
      omega
    · intro k hk
      rw [hunch k (fun q hq => hk q (List.mem_cons_of_mem _ hq)),
        dictGet_insert_ne _ _ _ _ (fun hc => hk _ (List.mem_cons_self ..) hc.symm)]
    · intro q hq a ha
      rcases List.mem_cons.mp hq with rfl | hq'
      · have heq : a = a0 := by
          rw [ha0] at ha
          injection ha with h1
          exact h1.symm
        rw [hunch _ (fun q' hq' hc => hhead (by rw [← hc]; exact List.mem_map_of_mem _ hq')),
          dictGet_insert_self, heq]
      · exact hget q hq' a ha

/-- A successful loop implies every matched entry was read successfully. -/
theorem readLoop_ok_all (parse : List Char → Except (List Char) α)
    (l : List (Name × Entry)) :
    ∀ d m, readLoop parse l d = .ok m →
      ∀ q ∈ l, ∃ a, pdReadCsv parse q.1 q.2 = .ok a := by
  induction l with
  | nil =>
    intro d m _ q hq
    cases hq
  | cons pe rest ih =>
    intro d m h q hq
    obtain ⟨p0, e0⟩ := pe
    cases hp : pdReadCsv parse p0 e0 with
    | error e =>
      simp only [readLoop, hp] at h
      exact Except.noConfusion h
    | ok df =>
      simp only [readLoop, hp] at h
      rcases List.mem_cons.mp hq with rfl | hq'
      · exact ⟨df, hp⟩
      · exact ih _ _ h q hq'

/-- Decomposition of a successful call: the folder check passed, `glob` found
at least one path, and the loop ran to completion from the empty dict. -/
theorem read_all_csvs_ok_elim (parse : List Char → Except (List Char) α)
    (fld : Folder) (fp : Name) (m : List (Name × α))
    (h : read_all_csvs parse fld fp = .ok m) :
    fld.isdir = true ∧ (csvEntries fp fld.entries).isEmpty = false ∧
      readLoop parse (csvEntries fp fld.entries) [] = .ok m := by
  unfold read_all_csvs at h
  by_cases hd : fld.isdir = false
  · rw [if_pos hd] at h
    exact Except.noConfusion h
  · rw [if_neg hd] at h
    simp only [] at h
    by_cases he : (csvEntries fp fld.entries).isEmpty
    · rw [if_pos he] at h
      exact Except.noConfusion h
    · rw [if_neg he] at h
      exact ⟨Bool.not_eq_false _ ▸ Bool.of_not_eq_false hd,
        Bool.of_not_eq_true he, h⟩

/-- If every entry is matched by the glob, the matched list pairs every entry
with its joined path, in enumeration order. -/
theorem csvEntries_all (fp : Name) (es : List Entry)
    (h : ∀ e ∈ es, matchesGlob e.name = true) :
    csvEntries fp es = es.map (fun e => (pathJoin fp e.name, e)) := by
  unfold csvEntries
  rw [List.filter_eq_self.mpr h]

/-- If no entry name ends in `.csv`, the glob matches nothing. -/
theorem csvEntries_nil (fp : Name) (es : List Entry)
    (h : ∀ e ∈ es, hasCsvExt e.name = false) :
    csvEntries fp es = [] := by
  unfold csvEntries
  rw [List.filter_eq_nil_iff.mpr, List.map_nil]
  intro e he
  intro hc
  rcases (matchesGlob_iff e.name).mp hc with ⟨_, hext⟩
  rw [h e he] at hext
  cases hext

/-- The entries the call processes, in order: the second components of the
matched list. -/
theorem csvEntries_snd (fp : Name) (es : List Entry) :
    (csvEntries fp es).map Prod.snd = es.filter (fun e => matchesGlob e.name) := by
  unfold csvEntries
  rw [List.map_map]
  exact List.map_id ..

/-- The `FileNotFoundError` message contains the offending folder path. -/
theorem nfMsg_has_path (fp : Name) : ∃ s t, nfMsg fp = s ++ fp ++ t :=
  ⟨("Pasta não encontrada: ".data) ++ [sq], [sq], by simp [nfMsg]⟩

/-- The `ValueError` message contains the searched folder path. -/
theorem nvMsg_has_path (fp : Name) : ∃ s t, nvMsg fp = s ++ fp ++ t :=
  ⟨("Nenhum arquivo .csv encontrado em: ".data) ++ [sq], [sq], by simp [nvMsg]⟩

/-- The `RuntimeError` message contains the offending file path. -/
theorem rtMsg_has_path (p cause : Name) : ∃ s t, rtMsg p cause = s ++ p ++ t :=
  ⟨("Erro ao ler ".data) ++ [sq], [sq] ++ (": ".data) ++ cause, by simp [rtMsg]⟩

/-- The `RuntimeError` message ends with the rendering of the chained cause:
the original error's information is kept. -/
theorem rtMsg_has_cause (p cause : Name) : ∃ s, rtMsg p cause = s ++ cause :=
  ⟨("Erro ao ler ".data) ++ [sq] ++ p ++ [sq] ++ (": ".data), by simp [rtMsg]⟩

/-- Reading back a rendered decimal digit gives the digit. -/
theorem charToDigit_digitToChar (d : ℕ) (hd : d < 10) :
    charToDigit (digitToChar d) = d := by
  interval_cases d <;> decide

/-- Rendered decimal digits are digit characters. -/
theorem isDigit_digitToChar (d : ℕ) (hd : d < 10) :
    (digitToChar d).isDigit = true := by
  interval_cases d <;> decide

/-- Decimal round trip: reading back the rendering of a number gives the
number. -/
theorem charsToNat_natToChars (n : ℕ) : charsToNat (natToChars n) = n := by
  by_cases h0 : n = 0
  · subst h0; decide
  · rw [natToChars, if_neg h0, charsToNat, List.map_reverse, List.reverse_reverse,
      List.map_map]
    have hmap : (Nat.digits 10 n).map (charToDigit ∘ digitToChar) = Nat.digits 10 n := by
      conv_rhs => rw [← List.map_id (Nat.digits 10 n)]
      apply List.map_congr_left
      intro d hd
      simpa using charToDigit_digitToChar d (Nat.digits_lt_base (by norm_num) hd)
    rw [hmap, Nat.ofDigits_digits]

/-- A rendered number is never the empty string. -/
theorem natToChars_ne_nil (n : ℕ) : natToChars n ≠ [] := by
  rw [natToChars]
  by_cases h0 : n = 0
  · rw [if_pos h0]; simp
  · rw [if_neg h0]
    simp only [ne_eq, List.reverse_eq_nil_iff, List.map_eq_nil_iff]
    exact Nat.digits_ne_nil_iff_ne_zero.mpr h0

/-- A rendered number consists of digit characters only. -/
theorem natToChars_all_digits (n : ℕ) : (natToChars n).all Char.isDigit = true := by
  rw [natToChars]
  by_cases h0 : n = 0
  · rw [if_pos h0]; decide
  · rw [if_neg h0, List.all_eq_true]
    intro c hc
    rw [List.mem_reverse] at hc
    rcases List.mem_map.mp hc with ⟨d, hd, rfl⟩
    exact isDigit_digitToChar d (Nat.digits_lt_base (by norm_num) hd)

/-- Type inference recognises a rendered number and reads it back exactly. -/
theorem inferValue_natToChars (n : ℕ) : inferValue (natToChars n) = .num n := by
  have h1 : (natToChars n).isEmpty = false := by
    rcases h : (natToChars n).isEmpty with _ | _
    · rfl
    · exact absurd (List.isEmpty_iff.mp h) (natToChars_ne_nil n)
  rw [inferValue, h1, natToChars_all_digits, charsToNat_natToChars]
  rfl

/-- Numbers survive the write-then-read normalization unchanged. -/
theorem normalizeValue_num (n : ℕ) : normalizeValue (.num n) = .num n := by
  rw [normalizeValue, renderValue, inferValue_natToChars]

/-- Splitting always produces at least one part. -/
theorem splitC_ne_nil (sep : Char) (s : List Char) : splitC sep s ≠ [] := by
  cases s with
  | nil => simp [splitC]
  | cons c cs =>
    simp only [splitC]
    cases h : splitC sep cs with
    | nil => simp
    | cons r rs => by_cases hc : c = sep <;> simp [hc]

/-- A string free of the separator splits into itself alone. -/
theorem splitC_no_sep (sep : Char) (s : List Char) (h : ∀ c ∈ s, ¬c = sep) :
    splitC sep s = [s] := by
  induction s with
  | nil => rfl
  | cons c cs ih =>
    have hc : ¬c = sep := h c (by simp)
    have ihh := ih (fun x hx => h x (by simp [hx]))
    simp [splitC, ihh, hc]

/-- Splitting past a separator-free first block peels it off. -/
theorem splitC_append (sep : Char) (a rest : List Char) (h : ∀ c ∈ a, ¬c = sep) :
    splitC sep (a ++ sep :: rest) = a :: splitC sep rest := by
  induction a with
  | nil =>
    cases hr : splitC sep rest with
    | nil => exact absurd hr (splitC_ne_nil sep rest)
    | cons r rs => simp [splitC, hr]
  | cons c a ih =>
    have hc : ¬c = sep := h c (by simp)
    have ihh := ih (fun x hx => h x (by simp [hx]))
    simp [splitC, ihh, hc]

/-- Splitting undoes joining when no part contains the separator. -/
theorem splitC_joinC (sep : Char) (parts : List (List Char)) (hne : parts ≠ [])
    (h : ∀ p ∈ parts, ∀ c ∈ p, ¬c = sep) :
    splitC sep (joinC sep parts) = parts := by
  induction parts with
  | nil => cases hne rfl
  | cons p parts ih =>
    cases parts with
    | nil => exact splitC_no_sep sep p (h p (by simp))
    | cons p2 parts2 =>
      rw [show joinC sep (p :: p2 :: parts2) = p ++ sep :: joinC sep (p2 :: parts2) from rfl]
      rw [splitC_append sep p _ (h p (by simp))]
      rw [ih (by simp) (fun q hq => h q (by simp [hq]))]

/-- Every character of a join is the separator or comes from one of the
parts. -/
theorem mem_joinC (sep : Char) (parts : List (List Char)) (c : Char)
    (hc : c ∈ joinC sep parts) : c = sep ∨ ∃ p ∈ parts, c ∈ p := by
  induction parts with
  | nil => cases hc
  | cons p parts ih =>
    cases parts with
    | nil => exact Or.inr ⟨p, by simp, hc⟩
    | cons p2 parts2 =>
      rw [show joinC sep (p :: p2 :: parts2) = p ++ sep :: joinC sep (p2 :: parts2)
        from rfl] at hc
      rcases List.mem_append.mp hc with hc | hc
      · exact Or.inr ⟨p, by simp, hc⟩
      · rcases List.mem_cons.mp hc with rfl | hc
        · exact Or.inl rfl
        · rcases ih hc with hs | ⟨q, hq, hcq⟩
          · exact Or.inl hs
          · exact Or.inr ⟨q, List.mem_cons_of_mem _ hq, hcq⟩

/-- Unpacking the separator-freedom of a cell. -/
theorem noSep_spec (s : List Char) (h : noSep s = true) :
    ∀ c ∈ s, ¬c = ',' ∧ ¬c = '\n' := by
  intro c hc
  have hx := (List.all_eq_true.mp h) c hc
  simp only [Bool.and_eq_true, Bool.not_eq_true', decide_eq_false_iff_not] at hx
  exact hx

/-- On an existing directory with at least one glob match, the call reduces
to the loop over the matched paths. -/
theorem read_all_csvs_true (parse : List Char → Except (List Char) α)
    (es : List Entry) (fp : Name)
    (hne : (csvEntries fp es).isEmpty = false) :
    read_all_csvs parse ⟨true, es⟩ fp = readLoop parse (csvEntries fp es) [] := by
  unfold read_all_csvs
  rw [if_neg (fun hc => Bool.noConfusion hc)]
  simp only []
  rw [if_neg (by simp [hne])]

/-- On an existing directory with no glob match, the call raises the
`ValueError`. -/
theorem read_all_csvs_empty (parse : List Char → Except (List Char) α)
    (es : List Entry) (fp : Name)
    (he : (csvEntries fp es).isEmpty = true) :
    read_all_csvs parse ⟨true, es⟩ fp = .error (.valueError (nvMsg fp)) := by
  unfold read_all_csvs
  rw [if_neg (fun hc => Bool.noConfusion hc)]
  simp only []
  rw [if_pos he]

/-- Write-then-read round trip of the modelled CSV format: the columns come
back unchanged and every cell comes back normalized by type inference. -/
theorem readCSV_writeCSV (t : Table) (hwf : t.wf) :
    readCSV (writeCSV t) = ⟨t.columns, t.rows.map (fun r => r.map normalizeValue)⟩ := by
  obtain ⟨hcols, hcolsep, hrows⟩ := hwf
  have hcols_comma : ∀ c ∈ t.columns, ∀ x ∈ c, ¬x = ',' :=
    fun c hc x hx => (noSep_spec c (hcolsep c hc) x hx).1
  have hcell_comma : ∀ r ∈ t.rows, ∀ p ∈ r.map renderValue, ∀ x ∈ p, ¬x = ',' := by
    intro r hr p hp x hx
    rcases List.mem_map.mp hp with ⟨v, hv, rfl⟩
    exact (noSep_spec _ ((hrows r hr).2 v hv) x hx).1
  have hlines_nl : ∀ l ∈ (joinC ',' t.columns)
      :: t.rows.map (fun r => joinC ',' (r.map renderValue)), ∀ c ∈ l, ¬c = '\n' := by
    intro l hl c hc
    rcases List.mem_cons.mp hl with rfl | hl
    · rcases mem_joinC ',' t.columns c hc with rfl | ⟨p, hp, hcp⟩
      · decide
      · exact (noSep_spec p (hcolsep p hp) c hcp).2
    · rcases List.mem_map.mp hl with ⟨r, hr, rfl⟩
      rcases mem_joinC ',' (r.map renderValue) c hc with rfl | ⟨p, hp, hcp⟩
      · decide
      · rcases List.mem_map.mp hp with ⟨v, hv, rfl⟩
        exact (noSep_spec _ ((hrows r hr).2 v hv) c hcp).2
  unfold writeCSV readCSV
  rw [splitC_joinC '\n' _ (by simp) hlines_nl]
  show Table.mk (splitC ',' (joinC ',' t.columns))
      ((t.rows.map (fun r => joinC ',' (r.map renderValue))).map
        (fun r => (splitC ',' r).map inferValue))
    = Table.mk t.columns (t.rows.map (fun r => r.map normalizeValue))
  rw [splitC_joinC ',' t.columns hcols hcols_comma, List.map_map]
  congr 1
  apply List.map_congr_left
  intro r hr
  show (splitC ',' (joinC ',' (r.map renderValue))).map inferValue = r.map normalizeValue
  rw [splitC_joinC ',' (r.map renderValue)
      (fun hcon => (hrows r hr).1 (List.map_eq_nil_iff.mp hcon)) (hcell_comma r hr),
    List.map_map]
  rfl

/-- When the folder check passed and the glob matched something, the call is
the loop over the matched paths. -/
theorem read_all_csvs_isdir_true (parse : List Char → Except (List Char) α)
    (fld : Folder) (fp : Name) (hdir : fld.isdir = true)
    (hne : (csvEntries fp fld.entries).isEmpty = false) :
    read_all_csvs parse fld fp = readLoop parse (csvEntries fp fld.entries) [] := by
  obtain ⟨b, es⟩ := fld
  have hb : b = true := hdir
  subst hb
  exact read_all_csvs_true parse es fp hne

/-- C3: for every `folder_path` that does not exist or is not a directory
(`os.path.isdir` is false), `read_all_csvs` fails with the `FileNotFoundError`
whose message contains the offending path; the result does not depend on the
folder's entries or on the parser, so the validation precedes any enumeration
or parsing. -/
theorem C3_not_found (parse : List Char → Except (List Char) α)
    (es : List Entry) (fp : Name) :
    read_all_csvs parse ⟨false, es⟩ fp = .error (.fileNotFoundError (nfMsg fp))
      ∧ ∃ s t, nfMsg fp = s ++ fp ++ t := by
  refine ⟨?_, nfMsg_has_path fp⟩
  unfold read_all_csvs
  rw [if_pos rfl]

/-- C4: on an existing directory none of whose entries has the `.csv` suffix
(in particular an empty directory), `read_all_csvs` fails with the
`ValueError` whose message contains the searched path; the result does not
depend on the parser, so no parsing is attempted. -/
theorem C4_invalid_input (parse : List Char → Except (List Char) α)
    (es : List Entry) (fp : Name)
    (h : ∀ e ∈ es, hasCsvExt e.name = false) :
    read_all_csvs parse ⟨true, es⟩ fp = .error (.valueError (nvMsg fp))
      ∧ ∃ s t, nvMsg fp = s ++ fp ++ t := by
  refine ⟨?_, nvMsg_has_path fp⟩
  exact read_all_csvs_empty parse es fp (by rw [csvEntries_nil fp es h]; rfl)

theorem C4_witness :
    (∀ e ∈ [Entry.file "notas.txt".data [], Entry.dir "sub".data],
        hasCsvExt e.name = false)
      ∧ read_all_csvs (fun _ => Except.ok (0 : Nat))
          ⟨true, [Entry.file "notas.txt".data [], Entry.dir "sub".data]⟩ "empty".data
        = .error (.valueError (nvMsg "empty".data)) :=
  ⟨by decide, (C4_invalid_input _ _ _ (by decide)).1⟩

/-- C9: whenever `read_all_csvs` returns normally, the returned mapping is
non-empty — the zero-match case raises before any insertion happens. -/
theorem C9_result_nonempty (parse : List Char → Except (List Char) α)
    (fld : Folder) (fp : Name) (m : List (Name × α))
    (h : read_all_csvs parse fld fp = .ok m) : m ≠ [] := by
  obtain ⟨hdir, hne, hloop⟩ := read_all_csvs_ok_elim parse fld fp m h
  cases hl : csvEntries fp fld.entries with
  | nil => rw [hl] at hne; cases hne
  | cons q l =>
    rw [hl] at hloop
    obtain ⟨p0, e0⟩ := q
    cases hp : pdReadCsv parse p0 e0 with
    | error e =>
      simp only [readLoop, hp] at hloop
      exact Except.noConfusion hloop
    | ok df =>
      simp only [readLoop, hp] at hloop
      have h1 : 1 ≤ m.length := readLoop_length_ge parse l _ m hloop
      intro hc
      rw [hc] at h1
      simp at h1

theorem C9_witness :
    read_all_csvs (fun _ => Except.ok (0 : Nat))
        ⟨true, [Entry.file ('a' :: csvExt) []]⟩ "d".data
      = .ok [(['a'], 0)]
      ∧ ([(['a'], (0 : Nat))] : List (Name × Nat)) ≠ [] :=
  ⟨by decide, C9_result_nonempty (fun _ => Except.ok (0 : Nat))
    ⟨true, [Entry.file ('a' :: csvExt) []]⟩ "d".data [(['a'], 0)] (by decide)⟩

/-- C5 as stated by the spec is false: the entries processed are not exactly
those whose name ends in `.csv` — a hidden file `.a.csv` ends in `.csv` but
`glob` skips it. -/
theorem C5_counterexample :
    ¬((csvEntries "d".data [Entry.file ('.' :: 'a' :: csvExt) []]).map Prod.snd
      = [Entry.file ('.' :: 'a' :: csvExt) []].filter (fun e => hasCsvExt e.name)) := by
  decide

/-- C5 amended: the set of entries processed, in order, is exactly the direct
entries whose name ends with the literal, case-sensitive suffix `.csv` and
does not begin with a dot (glob treats leading-dot names as hidden). -/
theorem C5_amended_processed_set (fp : Name) (es : List Entry) :
    (csvEntries fp es).map Prod.snd
      = es.filter (fun e => !hiddenName e.name && hasCsvExt e.name) := by
  rw [csvEntries_snd]
  apply List.filter_congr
  intro e _
  rw [matchesGlob, globMatchP_starCsv]

/-- C6: for every matched file, the dict key is the file name with everything
after and including the final dot removed. -/
theorem C6_key_drops_final_extension (fp n : Name) (hsep : '/' ∉ n)
    (hm : matchesGlob n = true) :
    keyOfPath (pathJoin fp n) = stripAfterLastDot n := by
  obtain ⟨hhid, hext⟩ := (matchesGlob_iff n).mp hm
  obtain ⟨a, rfl⟩ := (hasCsvExt_iff n).mp hext
  rw [keyOfPath_pathJoin fp _ a hsep hhid rfl, stripAfterLastDot_concat]

theorem C6_witness :
    keyOfPath (pathJoin "data".data "vendas.csv".data) = "vendas".data
      ∧ keyOfPath (pathJoin "data".data "a.b.csv".data) = "a.b".data := by
  constructor
  · rw [C6_key_drops_final_extension "data".data "vendas.csv".data (by decide) (by decide)]
    decide
  · rw [C6_key_drops_final_extension "data".data "a.b.csv".data (by decide) (by decide)]
    decide

/-- C2: if reading any matched file fails, the whole call fails with the
`RuntimeError` built from some failing matched path; its message contains that
path and ends with the rendering of the underlying cause, and the cause is
carried alongside the message (the `from e` chain).  No mapping is
returned. -/
theorem C2_parse_failure_aborts (parse : List Char → Except (List Char) α)
    (fld : Folder) (fp : Name)
    (hdir : fld.isdir = true)
    (hf : ∃ q ∈ csvEntries fp fld.entries, ∃ c, pdReadCsv parse q.1 q.2 = .error c) :
    ∃ p c, read_all_csvs parse fld fp = .error (.runtimeError (rtMsg p c) c)
      ∧ (∃ e, (p, e) ∈ csvEntries fp fld.entries ∧ pdReadCsv parse p e = .error c)
      ∧ (∃ s t, rtMsg p c = s ++ p ++ t) ∧ (∃ s, rtMsg p c = s ++ c) := by
  obtain ⟨p, c, hmem, hloop⟩ := readLoop_err_exists parse _ hf
  refine ⟨p, c, ?_, hmem, rtMsg_has_path p c, rtMsg_has_cause p c⟩
  have hne : (csvEntries fp fld.entries).isEmpty = false := by
    obtain ⟨q, hq, _⟩ := hf
    cases hcl : csvEntries fp fld.entries with
    | nil => rw [hcl] at hq; cases hq
    | cons x l => rfl
  rw [read_all_csvs_isdir_true parse fld fp hdir hne]
  exact hloop []

theorem C2_witness :
    ∃ p c, read_all_csvs (fun _ => (Except.error "bad".data : Except (List Char) Nat))
          ⟨true, [Entry.file ('a' :: csvExt) []]⟩ "d".data
        = .error (.runtimeError (rtMsg p c) c)
      ∧ (∃ e, (p, e) ∈ csvEntries "d".data [Entry.file ('a' :: csvExt) []]
          ∧ pdReadCsv (fun _ => (Except.error "bad".data : Except (List Char) Nat)) p e
            = .error c)
      ∧ (∃ s t, rtMsg p c = s ++ p ++ t) ∧ (∃ s, rtMsg p c = s ++ c) :=
  C2_parse_failure_aborts (fun _ => (Except.error "bad".data : Except (List Char) Nat))
    ⟨true, [Entry.file ('a' :: csvExt) []]⟩ "d".data rfl
    ⟨(pathJoin "d".data ('a' :: csvExt), Entry.file ('a' :: csvExt) []),
      by decide, "bad".data, rfl⟩

/-- C10 as stated is false: a hidden subdirectory `.d.csv` ends in `.csv` but
is not matched, so its presence does not make the call fail — here the call
succeeds. -/
theorem C10_counterexample :
    hasCsvExt ('.' :: 'd' :: csvExt) = true
      ∧ read_all_csvs (fun _ => Except.ok (0 : Nat))
          ⟨true, [Entry.dir ('.' :: 'd' :: csvExt), Entry.file ('a' :: csvExt) []]⟩ "p".data
        = .ok [(['a'], 0)] := by
  constructor <;> decide

/-- C10 amended: a non-hidden subdirectory whose name ends in `.csv` is
included by the enumeration and handed to the reader like a file, so the
whole call fails with the wrapped `RuntimeError` rather than the entry being
skipped. -/
theorem C10_amended_subdir_aborts (parse : List Char → Except (List Char) α)
    (fld : Folder) (fp : Name) (nm : Name)
    (hdir : fld.isdir = true)
    (hmem : Entry.dir nm ∈ fld.entries)
    (hhid : hiddenName nm = false) (hext : hasCsvExt nm = true) :
    Entry.dir nm ∈ (csvEntries fp fld.entries).map Prod.snd
      ∧ ∃ p c, read_all_csvs parse fld fp = .error (.runtimeError (rtMsg p c) c) := by
  have hm : matchesGlob nm = true := (matchesGlob_iff nm).mpr ⟨hhid, hext⟩
  have hmemf : Entry.dir nm ∈ fld.entries.filter (fun e => matchesGlob e.name) :=
    List.mem_filter.mpr ⟨hmem, hm⟩
  have hmem2 : (pathJoin fp nm, Entry.dir nm) ∈ csvEntries fp fld.entries :=
    List.mem_map_of_mem _ hmemf
  refine ⟨List.mem_map_of_mem Prod.snd hmem2, ?_⟩
  obtain ⟨p, c, _, hloop⟩ := readLoop_err_exists parse _
    ⟨(pathJoin fp nm, Entry.dir nm), hmem2, isADirectoryMsg (pathJoin fp nm), rfl⟩
  refine ⟨p, c, ?_⟩
  have hne : (csvEntries fp fld.entries).isEmpty = false := by
    cases hcl : csvEntries fp fld.entries with
    | nil => rw [hcl] at hmem2; cases hmem2
    | cons x l => rfl
  rw [read_all_csvs_isdir_true parse fld fp hdir hne]
  exact hloop []

theorem C10_witness :
    Entry.dir ('d' :: csvExt)
        ∈ (csvEntries "p".data [Entry.dir ('d' :: csvExt)]).map Prod.snd
      ∧ ∃ p c, read_all_csvs (fun _ => Except.ok (0 : Nat))
            ⟨true, [Entry.dir ('d' :: csvExt)]⟩ "p".data
          = .error (.runtimeError (rtMsg p c) c) :=
  C10_amended_subdir_aborts (fun _ => Except.ok (0 : Nat))
    ⟨true, [Entry.dir ('d' :: csvExt)]⟩ "p".data ('d' :: csvExt)
    rfl (by decide) (by decide) (by decide)

/-- C7: when two or more matched files derive the same key, the returned
mapping holds exactly one pair under that key, and its value is the table of
the matched file processed last in enumeration order. -/
theorem C7_last_write_wins (parse : List Char → Except (List Char) α)
    (fld : Folder) (fp : Name) (m : List (Name × α)) (k : Name)
    (hok : read_all_csvs parse fld fp = .ok m)
    (hdup : 2 ≤ ((csvEntries fp fld.entries).filter
        (fun q => decide (keyOfPath q.1 = k))).length) :
    ∃ q t, (csvEntries fp fld.entries).reverse.find?
          (fun q => decide (keyOfPath q.1 = k)) = some q
      ∧ pdReadCsv parse q.1 q.2 = .ok t
      ∧ dictGet m k = some t
      ∧ m.countP (fun q => decide (q.1 = k)) = 1 := by
  obtain ⟨hdir, hne, hloop⟩ := read_all_csvs_ok_elim parse fld fp m hok
  have hnonnil : ((csvEntries fp fld.entries).filter
      (fun q => decide (keyOfPath q.1 = k))) ≠ [] := by
    intro hc
    rw [hc] at hdup
    simp at hdup
  obtain ⟨q0, hq0⟩ := List.exists_mem_of_ne_nil _ hnonnil
  have hsome : ((csvEntries fp fld.entries).reverse.find?
      (fun q => decide (keyOfPath q.1 = k))).isSome := by
    rw [List.find?_isSome]
    have hq0m := List.mem_filter.mp hq0
    exact ⟨q0, List.mem_reverse.mpr hq0m.1, hq0m.2⟩
  obtain ⟨q, hfind⟩ := Option.isSome_iff_exists.mp hsome
  have hgot := readLoop_get parse _ _ _ hloop k
  rw [hfind] at hgot
  obtain ⟨t, ht⟩ := readLoop_ok_all parse _ _ _ hloop q
    (List.mem_reverse.mp (List.mem_of_find?_eq_some hfind))
  have hgot2 : dictGet m k = (pdReadCsv parse q.1 q.2).toOption := hgot
  have hval : dictGet m k = some t := by rw [hgot2, ht]; rfl
  refine ⟨q, t, hfind, ht, hval, ?_⟩
  exact countP_key_eq_one m k t
    (readLoop_nodup parse _ _ _ hloop List.nodup_nil) hval

theorem C7_witness :
    ∃ q t, (csvEntries "d".data
          [Entry.file ('a' :: csvExt) ['x'], Entry.file ('a' :: csvExt) ['y']]).reverse.find?
          (fun q => decide (keyOfPath q.1 = ['a'])) = some q
      ∧ pdReadCsv (fun s => Except.ok s) q.1 q.2 = .ok t
      ∧ dictGet [(['a'], ['y'])] ['a'] = some t
      ∧ ([(['a'], ['y'])] : List (Name × List Char)).countP
          (fun q => decide (q.1 = ['a'])) = 1 :=
  C7_last_write_wins (fun s => Except.ok s)
    ⟨true, [Entry.file ('a' :: csvExt) ['x'], Entry.file ('a' :: csvExt) ['y']]⟩
    "d".data [(['a'], ['y'])] ['a'] (by decide) (by decide)

/-- C1 as stated is false: a directory containing only valid CSV files (here
one hidden file `.a.csv`, whose name ends in `.csv` and whose parse always
succeeds) does not yield a one-entry-per-file mapping — the call raises the
`ValueError` because `glob` skips hidden names. -/
theorem C1_counterexample :
    hasCsvExt ('.' :: 'a' :: csvExt) = true
      ∧ (fun _ : List Char => (Except.ok (0 : Nat) : Except (List Char) Nat)) []
        = Except.ok 0
      ∧ read_all_csvs (fun _ => Except.ok (0 : Nat))
          ⟨true, [Entry.file ('.' :: 'a' :: csvExt) []]⟩ "d".data
        = .error (.valueError (nvMsg "d".data)) :=
  ⟨by decide, rfl, by decide⟩

/-- C1 amended: for every existing directory containing at least one file and
only valid, non-hidden CSV files with pairwise-distinct base names, the call
returns a mapping with exactly one entry per file, keyed by the file name
without its extension and valued by the table parsed from that file. -/
theorem C1_amended_one_entry_per_file (parse : List Char → Except (List Char) α)
    (fld : Folder) (fp : Name)
    (hdir : fld.isdir = true)
    (hne : fld.entries ≠ [])
    (hfiles : ∀ e ∈ fld.entries, ∃ nm cnt, e = Entry.file nm cnt ∧ '/' ∉ nm ∧
      hiddenName nm = false ∧ hasCsvExt nm = true ∧ ∃ a, parse cnt = .ok a)
    (hkeys : (fld.entries.map (fun e => stripAfterLastDot e.name)).Nodup) :
    ∃ m, read_all_csvs parse fld fp = .ok m
      ∧ m.length = fld.entries.length
      ∧ ∀ nm cnt a, Entry.file nm cnt ∈ fld.entries → parse cnt = .ok a →
          dictGet m (stripAfterLastDot nm) = some a := by
  have hmatch : ∀ e ∈ fld.entries, matchesGlob e.name = true := by
    intro e he
    obtain ⟨nm, cnt, rfl, _, hhid, hext, _⟩ := hfiles e he
    exact (matchesGlob_iff nm).mpr ⟨hhid, hext⟩
  have hl : csvEntries fp fld.entries = fld.entries.map (fun e => (pathJoin fp e.name, e)) :=
    csvEntries_all fp fld.entries hmatch
  have hkey_e : ∀ e ∈ fld.entries,
      keyOfPath (pathJoin fp e.name) = stripAfterLastDot e.name := by
    intro e he
    obtain ⟨nm, cnt, rfl, hsep, hhid, hext, _⟩ := hfiles e he
    obtain ⟨a, hna⟩ := (hasCsvExt_iff nm).mp hext
    show keyOfPath (pathJoin fp nm) = stripAfterLastDot nm
    rw [keyOfPath_pathJoin fp nm a hsep hhid hna, hna, stripAfterLastDot_concat]
  have hkeysl : ((csvEntries fp fld.entries).map (fun q => keyOfPath q.1)).Nodup := by
    rw [hl, List.map_map]
    have hmaps : fld.entries.map
        ((fun q : Name × Entry => keyOfPath q.1) ∘ (fun e => (pathJoin fp e.name, e)))
        = fld.entries.map (fun e => stripAfterLastDot e.name) :=
      List.map_congr_left (fun e he => hkey_e e he)
    rw [hmaps]
    exact hkeys
  have hok_l : ∀ q ∈ csvEntries fp fld.entries, ∃ a, pdReadCsv parse q.1 q.2 = .ok a := by
    rw [hl]
    intro q hq
    rcases List.mem_map.mp hq with ⟨e, he, rfl⟩
    obtain ⟨nm, cnt, rfl, _, _, _, a, ha⟩ := hfiles e he
    exact ⟨a, ha⟩
  have hfresh : ∀ q ∈ csvEntries fp fld.entries,
      ¬keyOfPath q.1 ∈ dictKeys ([] : List (Name × α)) := by
    intro q _ hc
    cases hc
  obtain ⟨m, hloop, hlen, _, hget⟩ := readLoop_fresh parse _ [] hok_l hkeysl hfresh
  have hlne : (csvEntries fp fld.entries).isEmpty = false := by
    rw [hl]
    cases hes : fld.entries with
    | nil => exact absurd hes hne
    | cons x xs => rfl
  refine ⟨m, ?_, ?_, ?_⟩
  · rw [read_all_csvs_isdir_true parse fld fp hdir hlne]
    exact hloop
  · rw [hlen, hl, List.length_map]
    simp
  · intro nm cnt a hmem hparse
    have hqmem : (pathJoin fp nm, Entry.file nm cnt) ∈ csvEntries fp fld.entries := by
      rw [hl]
      exact List.mem_map_of_mem _ hmem
    have hg : dictGet m (keyOfPath (pathJoin fp nm)) = some a := hget _ hqmem a hparse
    have hk2 : keyOfPath (pathJoin fp nm) = stripAfterLastDot nm :=
      hkey_e (Entry.file nm cnt) hmem
    rw [hk2] at hg
    exact hg

theorem C1_witness :
    ∃ m, read_all_csvs (fun _ => Except.ok (0 : Nat))
          ⟨true, [Entry.file ('a' :: csvExt) [], Entry.file ('b' :: csvExt) []]⟩ "d".data
        = .ok m
      ∧ m.length = [Entry.file ('a' :: csvExt) [], Entry.file ('b' :: csvExt) []].length
      ∧ ∀ nm cnt a, Entry.file nm cnt
            ∈ [Entry.file ('a' :: csvExt) [], Entry.file ('b' :: csvExt) []] →
          (fun _ : List Char => (Except.ok (0 : Nat) : Except (List Char) Nat)) cnt
            = .ok a →
          dictGet m (stripAfterLastDot nm) = some a :=
  C1_amended_one_entry_per_file (fun _ => Except.ok (0 : Nat))
    ⟨true, [Entry.file ('a' :: csvExt) [], Entry.file ('b' :: csvExt) []]⟩ "d".data
    rfl (by decide)
    (fun e he => by
      rcases List.mem_cons.mp he with rfl | he2
      · exact ⟨'a' :: csvExt, [], rfl, by decide, by decide, by decide, 0, rfl⟩
      · rcases List.mem_singleton.mp he2 with rfl
        exact ⟨'b' :: csvExt, [], rfl, by decide, by decide, by decide, 0, rfl⟩)
    (by decide)

/-- C8: writing a table to CSV and loading it back through `read_all_csvs`
(for a directory containing only that file) yields a mapping from the file
name without extension to a table with the same columns and the rows
normalized cell-wise by type inference; numbers are unchanged by that
normalization. -/
theorem C8_roundtrip (t : Table) (nm fp : Name)
    (hwf : t.wf) (hglob : matchesGlob nm = true) (hsep : '/' ∉ nm) :
    read_all_csvs csvParse ⟨true, [Entry.file nm (writeCSV t)]⟩ fp
        = .ok [(stripAfterLastDot nm,
            Table.mk t.columns (t.rows.map (fun r => r.map normalizeValue)))]
      ∧ ∀ j, normalizeValue (Value.num j) = Value.num j := by
  refine ⟨?_, fun j => normalizeValue_num j⟩
  obtain ⟨hhid, hext⟩ := (matchesGlob_iff nm).mp hglob
  obtain ⟨a, hna⟩ := (hasCsvExt_iff nm).mp hext
  have hentries : csvEntries fp [Entry.file nm (writeCSV t)]
      = [(pathJoin fp nm, Entry.file nm (writeCSV t))] := by
    have hflt : List.filter (fun e => matchesGlob e.name) [Entry.file nm (writeCSV t)]
        = [Entry.file nm (writeCSV t)] :=
      List.filter_eq_self.mpr (fun e he => by
        rcases List.mem_singleton.mp he with rfl
        exact hglob)
    unfold csvEntries
    rw [hflt]
    rfl
  rw [read_all_csvs_true csvParse _ fp (by rw [hentries]; rfl)]
  rw [hentries]
  simp only [readLoop, pdReadCsv, csvParse]
  rw [readCSV_writeCSV t hwf]
  rw [keyOfPath_pathJoin fp nm a hsep hhid hna]
  rw [hna, stripAfterLastDot_concat]
  rfl

theorem C8_witness :
    read_all_csvs csvParse
        ⟨true, [Entry.file "sales.csv".data (writeCSV (Table.mk
          ["id".data, "amount".data] [[Value.str ['x'], Value.str ['y']]]))]⟩ "data".data
      = .ok [(stripAfterLastDot "sales.csv".data,
          Table.mk ["id".data, "amount".data]
            (([[Value.str ['x'], Value.str ['y']]] : List (List Value)).map
              (fun r => r.map normalizeValue)))]
      ∧ ∀ j, normalizeValue (Value.num j) = Value.num j :=
  C8_roundtrip (Table.mk ["id".data, "amount".data] [[Value.str ['x'], Value.str ['y']]])
    "sales.csv".data "data".data
    ⟨by decide, by decide, by decide⟩ (by decide) (by decide)

end GPMS
